import Mathlib

/-!
Shallow embedding of the rectangular bin-packing space of
`src/geometry/bin_packing_space.hpp` (class `math::BinPackingSpace` and its
nested `Node`), together with proofs of the specification's properties.

The geometry value types (`Size2i`, `Rectanglei` and the 2-d integer point
they are built from) come from `size.hpp` / `rectangular.hpp`, which only
declare plain width/height resp. origin/size aggregates; they are embedded as
structures over `Int` (C++ `int`, far from overflow on all inputs considered
here).
-/

/-- A two-dimensional size: a width and a height (`Size2i` from `size.hpp`). -/
structure Size2i where
  width : Int
  height : Int
deriving DecidableEq

/-- A two-dimensional point (`Vector2i`), used as a rectangle origin. -/
structure Vector2i where
  x : Int
  y : Int
deriving DecidableEq

/-- An axis-aligned rectangle: an origin and a size (`Rectanglei` from
`rectangular.hpp`). -/
structure Rectanglei where
  origin : Vector2i
  size : Size2i
deriving DecidableEq

/-- A node of the bin-packing tree (`BinPackingSpace::Node`).  A node is
either a leaf (both `childs` null in the C++; here no children), carrying its
`bounds` and its `taken` flag, or an internal node with exactly two children
(the C++ invariant that the children are either both null or both non-null). -/
inductive Node where
  | leaf (bounds : Rectanglei) (taken : Bool)
  | node (bounds : Rectanglei) (child0 child1 : Node)
deriving DecidableEq

/-- The `bounds` field of a node. -/
def Node.bounds : Node → Rectanglei
  | .leaf b _ => b
  | .node b _ _ => b

/-- Termination measure for `Node.insert`: an internal node dominates its
children, and a leaf is measured by its slack (leftover width plus leftover
height) relative to the requested size, which shrinks at every split. -/
def Node.sizeMeasure (s : Size2i) : Node → Nat
  | .leaf b _ => (b.size.width - s.width).toNat + (b.size.height - s.height).toNat
  | .node _ c0 c1 => Node.sizeMeasure s c0 + Node.sizeMeasure s c1 + 1

/-- `BinPackingSpace::Node::insert`.  The C++ mutates the tree in place and
returns a pointer to the taken leaf's bounds (null on failure); the embedding
returns the optional placement together with the updated tree.

Branches, in source order: internal node → recurse into child 0, on success
return its placement, otherwise recurse into child 1; leaf → fail if taken,
fail if too small in either dimension, take the leaf on an exact size match,
otherwise split (vertically when the leftover width exceeds the leftover
height, horizontally otherwise) and recurse into the new child 0. -/
def Node.insert : Node → Size2i → Option Rectanglei × Node
  | .node b c0 c1, s =>
      match Node.insert c0 s with
      | (some r, c0') => (some r, .node b c0' c1)
      | (none, c0') =>
          let r := Node.insert c1 s
          (r.1, .node b c0' r.2)
  | .leaf b tk, s =>
      if tk then (none, .leaf b tk)
      else if hfit : b.size.width < s.width ∨ b.size.height < s.height then
        (none, .leaf b tk)
      else if hexact : b.size = s then (some b, .leaf b true)
      else if hsplit : b.size.width - s.width > b.size.height - s.height then
        let r := Node.insert
          (.leaf ⟨b.origin,
                  ⟨b.size.width - (b.size.width - s.width), b.size.height⟩⟩ false) s
        (r.1, .node b r.2
          (.leaf ⟨⟨b.origin.x + s.width, b.origin.y⟩,
                  ⟨b.size.width - s.width, b.size.height⟩⟩ false))
      else
        let r := Node.insert
          (.leaf ⟨b.origin,
                  ⟨b.size.width, b.size.height - (b.size.height - s.height)⟩⟩ false) s
        (r.1, .node b r.2
          (.leaf ⟨⟨b.origin.x, b.origin.y + s.height⟩,
                  ⟨b.size.width, b.size.height - s.height⟩⟩ false))
termination_by t s => Node.sizeMeasure s t
decreasing_by
  · simp [Node.sizeMeasure]; omega
  · simp [Node.sizeMeasure]; omega
  · simp only [Node.sizeMeasure]
    have hw : s.width ≤ b.size.width := by omega
    have hh : s.height ≤ b.size.height := by omega
    have : s.width < b.size.width := by omega
    have h0 : (b.size.width - (b.size.width - s.width) - s.width).toNat = 0 := by omega
    omega
  · simp only [Node.sizeMeasure]
    have hw : s.width ≤ b.size.width := by omega
    have hh : s.height ≤ b.size.height := by omega
    have hne : ¬(b.size.width = s.width ∧ b.size.height = s.height) := by
      intro hc
      exact hexact (by cases b with
        | mk o sz => cases sz; cases s; simp_all)
    have : s.height < b.size.height := by omega
    omega

/-- The bin-packing space (`math::BinPackingSpace`): it owns the one-and-only
root node. -/
structure BinPackingSpace where
  root : Node
deriving DecidableEq

/-- Modelled from the spec: `rectangular.hpp` is not among the sources, so
the conversion of a `Size2i` into a `Rectanglei` that the `BinPackingSpace`
constructor applies when initialising `root(size)` is taken from the spec,
which states that the root node's bounds are "(origin (0,0), that Size)". -/
def rectFromSize (size : Size2i) : Rectanglei :=
  ⟨⟨0, 0⟩, size⟩

/-- The `BinPackingSpace(const Size2i&)` constructor: a fresh space whose
root is a free leaf covering the whole surface. -/
def BinPackingSpace.create (size : Size2i) : BinPackingSpace :=
  ⟨.leaf (rectFromSize size) false⟩

/-- `BinPackingSpace::insert`: delegate to the root node. -/
def BinPackingSpace.insert (sp : BinPackingSpace) (size : Size2i) :
    Option Rectanglei × BinPackingSpace :=
  ((sp.root.insert size).1, ⟨(sp.root.insert size).2⟩)

/-- `BinPackingSpace::getSize`: the size of the root's bounds. -/
def BinPackingSpace.getSize (sp : BinPackingSpace) : Size2i :=
  sp.root.bounds.size

/-- Run a sequence of insert calls on a node, returning the placements of
the successful calls in call order together with the final tree. -/
def Node.insertAll : Node → List Size2i → List Rectanglei × Node
  | t, [] => ([], t)
  | t, s :: rest =>
      match Node.insert t s with
      | (some r, t') => (r :: (Node.insertAll t' rest).1, (Node.insertAll t' rest).2)
      | (none, t') => Node.insertAll t' rest

/-- Run a sequence of `BinPackingSpace::insert` calls on a space. -/
def BinPackingSpace.insertAll (sp : BinPackingSpace) (sizes : List Size2i) :
    List Rectanglei × BinPackingSpace :=
  ((Node.insertAll sp.root sizes).1, ⟨(Node.insertAll sp.root sizes).2⟩)

/-- Membership of an integer point in a rectangle, half-open on both axes:
a rectangle covers the points with `origin ≤ p < origin + size`
componentwise.  A rectangle with non-positive width or height covers no
point. -/
def pointIn (r : Rectanglei) (p : Vector2i) : Prop :=
  r.origin.x ≤ p.x ∧ p.x < r.origin.x + r.size.width ∧
  r.origin.y ≤ p.y ∧ p.y < r.origin.y + r.size.height

instance (r : Rectanglei) (p : Vector2i) : Decidable (pointIn r p) := by
  unfold pointIn; infer_instance

/-- Two rectangles are disjoint when no point lies in both. -/
def rectDisjoint (r1 r2 : Rectanglei) : Prop :=
  ∀ p, ¬(pointIn r1 p ∧ pointIn r2 p)

/-- Coordinatewise containment of rectangle `inner` in rectangle `outer`. -/
def rectContains (outer inner : Rectanglei) : Prop :=
  outer.origin.x ≤ inner.origin.x ∧
  inner.origin.x + inner.size.width ≤ outer.origin.x + outer.size.width ∧
  outer.origin.y ≤ inner.origin.y ∧
  inner.origin.y + inner.size.height ≤ outer.origin.y + outer.size.height

instance (r1 r2 : Rectanglei) : Decidable (rectContains r1 r2) := by
  unfold rectContains; infer_instance

/-- The set of points of the surface committed to placements: a point is
taken when it lies in the bounds of some taken leaf. -/
def Node.takenAt : Node → Vector2i → Prop
  | .leaf b tk, p => tk = true ∧ pointIn b p
  | .node _ c0 c1, p => c0.takenAt p ∨ c1.takenAt p

/-- The leaves of the tree in depth-first order (child 0 before child 1),
each with its bounds and its `taken` flag. -/
def Node.leavesList : Node → List (Rectanglei × Bool)
  | .leaf b tk => [(b, tk)]
  | .node _ c0 c1 => c0.leavesList ++ c1.leavesList

/-- The number of nodes of the tree (internal nodes and leaves). -/
def Node.countNodes : Node → Nat
  | .leaf _ _ => 1
  | .node _ c0 c1 => 1 + c0.countNodes + c1.countNodes

/-- The height of the tree: a leaf has height 0. -/
def Node.height : Node → Nat
  | .leaf _ _ => 0
  | .node _ c0 c1 => 1 + max c0.height c1.height

/-- The two ways `insert` splits a node's bounds between two children:
a vertical cut at offset `a` from the left edge, or a horizontal cut at
offset `a` from the bottom edge, with `0 ≤ a ≤` the extent being cut. -/
def splitPair (parent r0 r1 : Rectanglei) : Prop :=
  (∃ a, 0 ≤ a ∧ a ≤ parent.size.width ∧
    r0 = ⟨parent.origin, ⟨a, parent.size.height⟩⟩ ∧
    r1 = ⟨⟨parent.origin.x + a, parent.origin.y⟩,
          ⟨parent.size.width - a, parent.size.height⟩⟩) ∨
  (∃ a, 0 ≤ a ∧ a ≤ parent.size.height ∧
    r0 = ⟨parent.origin, ⟨parent.size.width, a⟩⟩ ∧
    r1 = ⟨⟨parent.origin.x, parent.origin.y + a⟩,
          ⟨parent.size.width, parent.size.height - a⟩⟩)

/-- Structural well-formedness of a tree, established by construction and
preserved by `insert` on non-negative requested sizes: every leaf has a
non-negative size, and the children of every internal node arise from a
vertical or horizontal cut of the parent's bounds. -/
def Node.wf : Node → Prop
  | .leaf b _ => 0 ≤ b.size.width ∧ 0 ≤ b.size.height
  | .node b c0 c1 => splitPair b c0.bounds c1.bounds ∧ c0.wf ∧ c1.wf

/-! Basic geometry lemmas. -/

theorem rectContains_refl (r : Rectanglei) : rectContains r r := by
  unfold rectContains; omega

theorem rectContains_trans {a b c : Rectanglei} (h1 : rectContains a b)
    (h2 : rectContains b c) : rectContains a c := by
  unfold rectContains at *; omega

theorem rectContains_pointIn {outer inner : Rectanglei} (h : rectContains outer inner)
    {p : Vector2i} (hp : pointIn inner p) : pointIn outer p := by
  unfold rectContains at h; unfold pointIn at *; omega

theorem rectContains_size {outer inner : Rectanglei} (h : rectContains outer inner) :
    inner.size.width ≤ outer.size.width ∧ inner.size.height ≤ outer.size.height := by
  unfold rectContains at h; omega

theorem splitPair_contains0 {parent r0 r1 : Rectanglei} (h : splitPair parent r0 r1) :
    rectContains parent r0 := by
  rcases h with ⟨a, h0, h1, h2, h3⟩ | ⟨a, h0, h1, h2, h3⟩ <;>
    subst h2 <;> unfold rectContains <;> simp <;> omega

theorem splitPair_contains1 {parent r0 r1 : Rectanglei} (h : splitPair parent r0 r1) :
    rectContains parent r1 := by
  rcases h with ⟨a, h0, h1, h2, h3⟩ | ⟨a, h0, h1, h2, h3⟩ <;>
    subst h3 <;> unfold rectContains <;> simp <;> omega

theorem splitPair_disjoint {parent r0 r1 : Rectanglei} (h : splitPair parent r0 r1) :
    rectDisjoint r0 r1 := by
  rcases h with ⟨a, h0, h1, h2, h3⟩ | ⟨a, h0, h1, h2, h3⟩ <;>
    subst h2 <;> subst h3 <;> intro p hp <;>
    rcases hp with ⟨hp0, hp1⟩ <;> unfold pointIn at hp0 hp1 <;>
    simp at hp0 hp1 <;> omega

theorem splitPair_tile {parent r0 r1 : Rectanglei} (h : splitPair parent r0 r1)
    (p : Vector2i) : pointIn parent p ↔ (pointIn r0 p ∨ pointIn r1 p) := by
  rcases h with ⟨a, h0, h1, h2, h3⟩ | ⟨a, h0, h1, h2, h3⟩ <;>
    subst h2 <;> subst h3 <;> unfold pointIn <;> simp <;> omega

/-! Basic structural lemmas about the tree and about `insert`. -/

theorem takenAt_subset_bounds {t : Node} (hwf : t.wf) {p : Vector2i}
    (hp : t.takenAt p) : pointIn t.bounds p := by
  induction t with
  | leaf b tk => exact hp.2
  | node b c0 c1 ih0 ih1 =>
      rcases hwf with ⟨hsp, hwf0, hwf1⟩
      rcases hp with hp | hp
      · exact rectContains_pointIn (splitPair_contains0 hsp) (ih0 hwf0 hp)
      · exact rectContains_pointIn (splitPair_contains1 hsp) (ih1 hwf1 hp)

theorem insert_bounds (t : Node) (s : Size2i) :
    (Node.insert t s).2.bounds = t.bounds := by
  cases t <;> rw [Node.insert.eq_def] <;> dsimp only <;>
    (repeat' split) <;> simp [Node.bounds]

/-! One-step unfolding lemmas for `insert`, one per branch of the source. -/

theorem insert_leaf_taken (b : Rectanglei) (s : Size2i) :
    Node.insert (.leaf b true) s = (none, .leaf b true) := by
  rw [Node.insert.eq_def]
  simp

theorem insert_leaf_nofit {b : Rectanglei} {s : Size2i}
    (hfit : b.size.width < s.width ∨ b.size.height < s.height) (tk : Bool) :
    Node.insert (.leaf b tk) s = (none, .leaf b tk) := by
  rw [Node.insert.eq_def]
  cases tk <;> simp [hfit]

theorem insert_leaf_exact (b : Rectanglei) :
    Node.insert (.leaf b false) b.size = (some b, .leaf b true) := by
  rw [Node.insert.eq_def]
  simp

theorem insert_leaf_split_v {b : Rectanglei} {s : Size2i}
    (hfit : ¬(b.size.width < s.width ∨ b.size.height < s.height))
    (hexact : ¬b.size = s)
    (hsplit : b.size.width - s.width > b.size.height - s.height) :
    Node.insert (.leaf b false) s =
      ((Node.insert (.leaf ⟨b.origin, ⟨s.width, b.size.height⟩⟩ false) s).1,
        .node b (Node.insert (.leaf ⟨b.origin, ⟨s.width, b.size.height⟩⟩ false) s).2
          (.leaf ⟨⟨b.origin.x + s.width, b.origin.y⟩,
                  ⟨b.size.width - s.width, b.size.height⟩⟩ false)) := by
  rw [Node.insert.eq_def]
  simp [hfit, hexact, hsplit, sub_sub_cancel]

theorem insert_leaf_split_h {b : Rectanglei} {s : Size2i}
    (hfit : ¬(b.size.width < s.width ∨ b.size.height < s.height))
    (hexact : ¬b.size = s)
    (hsplit : ¬(b.size.width - s.width > b.size.height - s.height)) :
    Node.insert (.leaf b false) s =
      ((Node.insert (.leaf ⟨b.origin, ⟨b.size.width, s.height⟩⟩ false) s).1,
        .node b (Node.insert (.leaf ⟨b.origin, ⟨b.size.width, s.height⟩⟩ false) s).2
          (.leaf ⟨⟨b.origin.x, b.origin.y + s.height⟩,
                  ⟨b.size.width, b.size.height - s.height⟩⟩ false)) := by
  rw [Node.insert.eq_def]
  simp [hfit, hexact, hsplit, sub_sub_cancel]

theorem insert_node_some {c0 : Node} {s : Size2i} {r : Rectanglei} {c0' : Node}
    (h : Node.insert c0 s = (some r, c0')) (b : Rectanglei) (c1 : Node) :
    Node.insert (.node b c0 c1) s = (some r, .node b c0' c1) := by
  rw [Node.insert.eq_def]
  simp [h]

theorem insert_node_none {c0 : Node} {s : Size2i} {c0' : Node}
    (h : Node.insert c0 s = (none, c0')) (b : Rectanglei) (c1 : Node) :
    Node.insert (.node b c0 c1) s =
      ((Node.insert c1 s).1, .node b c0' (Node.insert c1 s).2) := by
  rw [Node.insert.eq_def]
  simp [h]

/-- Exact-fit step restated with an explicit record, so that the requested
size appears literally as the second argument. -/
theorem insert_leaf_exact_mk (o : Vector2i) (s : Size2i) :
    Node.insert (.leaf ⟨o, s⟩ false) s = (some ⟨o, s⟩, .leaf ⟨o, s⟩ true) :=
  insert_leaf_exact ⟨o, s⟩

/-- Inserting into a free leaf that is at least as large as the request in
both dimensions always succeeds: either the match is exact, or the first
split (and at most one further split of the new child 0) produces an exact
leaf.  No sign conditions on the sizes are needed. -/
theorem insert_free_fit_some (b : Rectanglei) (s : Size2i)
    (hfit : ¬(b.size.width < s.width ∨ b.size.height < s.height)) :
    ∃ r t', Node.insert (.leaf b false) s = (some r, t') := by
  by_cases hexact : b.size = s
  · refine ⟨b, .leaf b true, ?_⟩
    have h := insert_leaf_exact b
    rw [hexact] at h
    exact h
  · by_cases hsplit : b.size.width - s.width > b.size.height - s.height
    · rw [insert_leaf_split_v hfit hexact hsplit]
      by_cases hexact1 : (⟨s.width, b.size.height⟩ : Size2i) = s
      · rw [hexact1, insert_leaf_exact_mk b.origin s]
        exact ⟨_, _, rfl⟩
      · have hfit1 : ¬((⟨b.origin, ⟨s.width, b.size.height⟩⟩ : Rectanglei).size.width < s.width ∨
            (⟨b.origin, ⟨s.width, b.size.height⟩⟩ : Rectanglei).size.height < s.height) := by
          dsimp only
          omega
        have hsplit1 : ¬((⟨b.origin, ⟨s.width, b.size.height⟩⟩ : Rectanglei).size.width - s.width >
            (⟨b.origin, ⟨s.width, b.size.height⟩⟩ : Rectanglei).size.height - s.height) := by
          dsimp only
          omega
        rw [insert_leaf_split_h hfit1 hexact1 hsplit1]
        dsimp only
        rw [insert_leaf_exact_mk b.origin ⟨s.width, s.height⟩]
        exact ⟨_, _, rfl⟩
    · rw [insert_leaf_split_h hfit hexact hsplit]
      by_cases hexact1 : (⟨b.size.width, s.height⟩ : Size2i) = s
      · rw [hexact1, insert_leaf_exact_mk b.origin s]
        exact ⟨_, _, rfl⟩
      · have hfit1 : ¬((⟨b.origin, ⟨b.size.width, s.height⟩⟩ : Rectanglei).size.width < s.width ∨
            (⟨b.origin, ⟨b.size.width, s.height⟩⟩ : Rectanglei).size.height < s.height) := by
          dsimp only
          omega
        have hsplit1 : (⟨b.origin, ⟨b.size.width, s.height⟩⟩ : Rectanglei).size.width - s.width >
            (⟨b.origin, ⟨b.size.width, s.height⟩⟩ : Rectanglei).size.height - s.height := by
          dsimp only
          have hwne : b.size.width ≠ s.width := by
            intro hc
            exact hexact1 (by cases s; simp_all)
          omega
        rw [insert_leaf_split_v hfit1 hexact1 hsplit1]
        dsimp only
        rw [insert_leaf_exact_mk b.origin ⟨s.width, s.height⟩]
        exact ⟨_, _, rfl⟩

/-- Every successful placement has exactly the requested size: the only
branch of `insert` that produces a placement is the exact-match branch. -/
theorem insert_some_size (t : Node) (s : Size2i) :
    ∀ r, (Node.insert t s).1 = some r → r.size = s := by
  induction t, s using Node.insert.induct with
  | case1 b c0 c1 s r c0' h ih =>
      intro r1 hr1
      rw [insert_node_some h] at hr1
      dsimp only at hr1
      cases hr1
      exact ih r (by rw [h])
  | case2 b c0 c1 s c0' h ih0 ih1 =>
      intro r1 hr1
      rw [insert_node_none h] at hr1
      dsimp only at hr1
      exact ih1 r1 hr1
  | case3 b s =>
      intro r1 hr1
      rw [insert_leaf_taken] at hr1
      simp at hr1
  | case4 b tk s htk hfit =>
      intro r1 hr1
      rw [insert_leaf_nofit hfit] at hr1
      simp at hr1
  | case5 b tk htk hfit =>
      intro r1 hr1
      have htk' : tk = false := by simpa using htk
      subst htk'
      rw [insert_leaf_exact] at hr1
      dsimp only at hr1
      cases hr1
      rfl
  | case6 b tk s htk hfit hexact hsplit ih =>
      intro r1 hr1
      have htk' : tk = false := by simpa using htk
      subst htk'
      rw [insert_leaf_split_v hfit hexact hsplit] at hr1
      dsimp only at hr1
      simp only [sub_sub_cancel] at ih
      exact ih r1 hr1
  | case7 b tk s htk hfit hexact hsplit ih =>
      intro r1 hr1
      have htk' : tk = false := by simpa using htk
      subst htk'
      rw [insert_leaf_split_h hfit hexact hsplit] at hr1
      dsimp only at hr1
      simp only [sub_sub_cancel] at ih
      exact ih r1 hr1

/-- A failed insertion leaves the tree unchanged: no split survives a
failure, because a split is always followed by a successful insertion into
its child 0. -/
theorem insert_none_eq (t : Node) (s : Size2i) :
    (Node.insert t s).1 = none → (Node.insert t s).2 = t := by
  induction t, s using Node.insert.induct with
  | case1 b c0 c1 s r c0' h ih =>
      intro hn
      rw [insert_node_some h] at hn
      simp at hn
  | case2 b c0 c1 s c0' h ih0 ih1 =>
      intro hn
      rw [insert_node_none h] at hn ⊢
      dsimp only at hn ⊢
      have h0 : c0' = c0 := by
        have := ih0 (by rw [h])
        rw [h] at this
        exact this
      rw [ih1 hn, h0]
  | case3 b s =>
      intro hn
      rw [insert_leaf_taken]
  | case4 b tk s htk hfit =>
      intro hn
      rw [insert_leaf_nofit hfit]
  | case5 b tk htk hfit =>
      intro hn
      have htk' : tk = false := by simpa using htk
      subst htk'
      rw [insert_leaf_exact] at hn
      simp at hn
  | case6 b tk s htk hfit hexact hsplit ih =>
      intro hn
      exfalso
      have htk' : tk = false := by simpa using htk
      subst htk'
      rw [insert_leaf_split_v hfit hexact hsplit] at hn
      dsimp only at hn
      obtain ⟨r, t', heq⟩ := insert_free_fit_some
        (⟨b.origin, ⟨s.width, b.size.height⟩⟩ : Rectanglei) s (by dsimp only; omega)
      rw [heq] at hn
      simp at hn
  | case7 b tk s htk hfit hexact hsplit ih =>
      intro hn
      exfalso
      have htk' : tk = false := by simpa using htk
      subst htk'
      rw [insert_leaf_split_h hfit hexact hsplit] at hn
      dsimp only at hn
      obtain ⟨r, t', heq⟩ := insert_free_fit_some
        (⟨b.origin, ⟨b.size.width, s.height⟩⟩ : Rectanglei) s (by dsimp only; omega)
      rw [heq] at hn
      simp at hn

/-- Master invariant of a single insertion with a non-negative requested
size on a well-formed tree: well-formedness is preserved, the taken region
only grows, and a successful placement is contained in the node's bounds,
is fresh (disjoint from the previously taken region), becomes taken, and is
the only addition to the taken region. -/
theorem insert_spec (t : Node) (s : Size2i) :
    0 ≤ s.width → 0 ≤ s.height → t.wf →
    ((Node.insert t s).2.wf ∧
     (∀ p, t.takenAt p → (Node.insert t s).2.takenAt p) ∧
     (∀ r, (Node.insert t s).1 = some r →
       rectContains t.bounds r ∧
       (∀ p, pointIn r p → (Node.insert t s).2.takenAt p) ∧
       (∀ p, pointIn r p → ¬ t.takenAt p) ∧
       (∀ p, (Node.insert t s).2.takenAt p → t.takenAt p ∨ pointIn r p))) := by
  induction t, s using Node.insert.induct with
  | case1 b c0 c1 s r c0' h ih =>
      intro hs0 hs1 hwf
      obtain ⟨hsp, hwf0, hwf1⟩ := hwf
      obtain ⟨ihwf, ihmono, ihsome⟩ := ih hs0 hs1 hwf0
      obtain ⟨ihcont, ihcover, ihfresh, ihnew⟩ := ihsome r (by rw [h])
      rw [h] at ihwf ihmono ihcover ihnew
      rw [insert_node_some h]
      have hb0 : c0'.bounds = c0.bounds := by
        have := insert_bounds c0 s
        rw [h] at this
        exact this
      refine ⟨⟨by rw [hb0]; exact hsp, ihwf, hwf1⟩, ?_, ?_⟩
      · intro p hp
        rcases hp with hp | hp
        · exact Or.inl (ihmono p hp)
        · exact Or.inr hp
      · intro r1 hr1
        cases hr1
        refine ⟨rectContains_trans (splitPair_contains0 hsp) ihcont, ?_, ?_, ?_⟩
        · intro p hp
          exact Or.inl (ihcover p hp)
        · intro p hp hts
          rcases hts with hts | hts
          · exact ihfresh p hp hts
          · exact splitPair_disjoint hsp p
              ⟨rectContains_pointIn ihcont hp, takenAt_subset_bounds hwf1 hts⟩
        · intro p hp
          rcases hp with hp | hp
          · rcases ihnew p hp with hq | hq
            · exact Or.inl (Or.inl hq)
            · exact Or.inr hq
          · exact Or.inl (Or.inr hp)
  | case2 b c0 c1 s c0' h ih0 ih1 =>
      intro hs0 hs1 hwf
      obtain ⟨hsp, hwf0, hwf1⟩ := hwf
      have hc0 : c0' = c0 := by
        have := insert_none_eq c0 s (by rw [h])
        rw [h] at this
        exact this
      subst hc0
      obtain ⟨ihwf, ihmono, ihsome⟩ := ih1 hs0 hs1 hwf1
      rw [insert_node_none h]
      have hb1 : (Node.insert c1 s).2.bounds = c1.bounds := insert_bounds c1 s
      refine ⟨⟨by rw [hb1]; exact hsp, hwf0, ihwf⟩, ?_, ?_⟩
      · intro p hp
        rcases hp with hp | hp
        · exact Or.inl hp
        · exact Or.inr (ihmono p hp)
      · intro r1 hr1
        dsimp only at hr1
        obtain ⟨ihcont, ihcover, ihfresh, ihnew⟩ := ihsome r1 hr1
        refine ⟨rectContains_trans (splitPair_contains1 hsp) ihcont, ?_, ?_, ?_⟩
        · intro p hp
          exact Or.inr (ihcover p hp)
        · intro p hp hts
          rcases hts with hts | hts
          · exact splitPair_disjoint hsp p
              ⟨takenAt_subset_bounds hwf0 hts, rectContains_pointIn ihcont hp⟩
          · exact ihfresh p hp hts
        · intro p hp
          rcases hp with hp | hp
          · exact Or.inl (Or.inl hp)
          · rcases ihnew p hp with hq | hq
            · exact Or.inl (Or.inr hq)
            · exact Or.inr hq
  | case3 b s =>
      intro hs0 hs1 hwf
      rw [insert_leaf_taken]
      exact ⟨hwf, fun p hp => hp, fun r1 hr1 => by simp at hr1⟩
  | case4 b tk s htk hfit =>
      intro hs0 hs1 hwf
      rw [insert_leaf_nofit hfit]
      exact ⟨hwf, fun p hp => hp, fun r1 hr1 => by simp at hr1⟩
  | case5 b tk htk hfit =>
      intro hs0 hs1 hwf
      have htk' : tk = false := by simpa using htk
      subst htk'
      rw [insert_leaf_exact]
      refine ⟨hwf, ?_, ?_⟩
      · intro p hp
        exact ⟨rfl, hp.2⟩
      · intro r1 hr1
        dsimp only at hr1
        cases hr1
        refine ⟨rectContains_refl b, ?_, ?_, ?_⟩
        · intro p hp
          exact ⟨rfl, hp⟩
        · intro p hp hts
          simp [Node.takenAt] at hts
        · intro p hp
          exact Or.inr hp.2
  | case6 b tk s htk hfit hexact hsplit ih =>
      intro hs0 hs1 hwf
      have htk' : tk = false := by simpa using htk
      subst htk'
      simp only [sub_sub_cancel] at ih
      have hwfc0 : (Node.leaf (⟨b.origin, ⟨s.width, b.size.height⟩⟩ : Rectanglei)
          false).wf := ⟨hs0, hwf.2⟩
      obtain ⟨ihwf, ihmono, ihsome⟩ := ih hs0 hs1 hwfc0
      rw [insert_leaf_split_v hfit hexact hsplit]
      have hb0 : (Node.insert (.leaf (⟨b.origin, ⟨s.width, b.size.height⟩⟩ :
          Rectanglei) false) s).2.bounds =
          (⟨b.origin, ⟨s.width, b.size.height⟩⟩ : Rectanglei) :=
        insert_bounds _ s
      refine ⟨?_, ?_, ?_⟩
      · refine ⟨?_, ihwf, ⟨by dsimp only; omega, by dsimp only; exact hwf.2⟩⟩
        rw [hb0]
        exact Or.inl ⟨s.width, hs0, by omega, rfl, rfl⟩
      · intro p hp
        simp [Node.takenAt] at hp
      · intro r1 hr1
        dsimp only at hr1
        obtain ⟨ihcont, ihcover, ihfresh, ihnew⟩ := ihsome r1 hr1
        have hcontb : rectContains b (⟨b.origin, ⟨s.width, b.size.height⟩⟩ :
            Rectanglei) := by
          unfold rectContains
          dsimp only
          omega
        refine ⟨rectContains_trans hcontb ihcont, ?_, ?_, ?_⟩
        · intro p hp
          exact Or.inl (ihcover p hp)
        · intro p hp hts
          simp [Node.takenAt] at hts
        · intro p hp
          rcases hp with hp | hp
          · rcases ihnew p hp with hq | hq
            · simp [Node.takenAt] at hq
            · exact Or.inr hq
          · simp [Node.takenAt] at hp
  | case7 b tk s htk hfit hexact hsplit ih =>
      intro hs0 hs1 hwf
      have htk' : tk = false := by simpa using htk
      subst htk'
      simp only [sub_sub_cancel] at ih
      have hwfc0 : (Node.leaf (⟨b.origin, ⟨b.size.width, s.height⟩⟩ : Rectanglei)
          false).wf := ⟨hwf.1, hs1⟩
      obtain ⟨ihwf, ihmono, ihsome⟩ := ih hs0 hs1 hwfc0
      rw [insert_leaf_split_h hfit hexact hsplit]
      have hb0 : (Node.insert (.leaf (⟨b.origin, ⟨b.size.width, s.height⟩⟩ :
          Rectanglei) false) s).2.bounds =
          (⟨b.origin, ⟨b.size.width, s.height⟩⟩ : Rectanglei) :=
        insert_bounds _ s
      refine ⟨?_, ?_, ?_⟩
      · refine ⟨?_, ihwf, ⟨by dsimp only; exact hwf.1, by dsimp only; omega⟩⟩
        rw [hb0]
        exact Or.inr ⟨s.height, hs1, by omega, rfl, rfl⟩
      · intro p hp
        simp [Node.takenAt] at hp
      · intro r1 hr1
        dsimp only at hr1
        obtain ⟨ihcont, ihcover, ihfresh, ihnew⟩ := ihsome r1 hr1
        have hcontb : rectContains b (⟨b.origin, ⟨b.size.width, s.height⟩⟩ :
            Rectanglei) := by
          unfold rectContains
          dsimp only
          omega
        refine ⟨rectContains_trans hcontb ihcont, ?_, ?_, ?_⟩
        · intro p hp
          exact Or.inl (ihcover p hp)
        · intro p hp hts
          simp [Node.takenAt] at hts
        · intro p hp
          rcases hp with hp | hp
          · rcases ihnew p hp with hq | hq
            · simp [Node.takenAt] at hq
            · exact Or.inr hq
          · simp [Node.takenAt] at hp

/-- Invariants of a whole sequence of insertions with non-negative requested
sizes, starting from a well-formed tree: the final tree is well-formed with
unchanged bounds, every returned placement is contained in the starting
bounds and disjoint from the initially taken region, and the returned
placements are pairwise disjoint in call order. -/
theorem insertAll_spec (sizes : List Size2i) : ∀ t : Node, t.wf →
    (∀ s ∈ sizes, 0 ≤ s.width ∧ 0 ≤ s.height) →
    ((Node.insertAll t sizes).2.wf ∧
     (Node.insertAll t sizes).2.bounds = t.bounds ∧
     (∀ r ∈ (Node.insertAll t sizes).1, rectContains t.bounds r) ∧
     (∀ r ∈ (Node.insertAll t sizes).1, ∀ p, pointIn r p → ¬ t.takenAt p) ∧
     List.Pairwise rectDisjoint (Node.insertAll t sizes).1) := by
  induction sizes with
  | nil =>
      intro t hwf hs
      exact ⟨hwf, rfl, by simp [Node.insertAll], by simp [Node.insertAll],
        by simp [Node.insertAll]⟩
  | cons s rest ih =>
      intro t hwf hs
      have hs0 : 0 ≤ s.width := (hs s (List.mem_cons_self s rest)).1
      have hs1 : 0 ≤ s.height := (hs s (List.mem_cons_self s rest)).2
      have hrest : ∀ s' ∈ rest, 0 ≤ s'.width ∧ 0 ≤ s'.height :=
        fun s' h => hs s' (List.mem_cons_of_mem s h)
      obtain ⟨spwf, spmono, spsome⟩ := insert_spec t s hs0 hs1 hwf
      have hbnd := insert_bounds t s
      rcases hres : Node.insert t s with ⟨res, t'⟩
      rw [hres] at spwf spmono hbnd
      cases res with
      | some r =>
          obtain ⟨spcont, spcover, spfresh, spnew⟩ := spsome r (by rw [hres])
          rw [hres] at spcover spnew
          obtain ⟨iwf, ibnd, icont, ifresh, ipair⟩ := ih t' spwf hrest
          have hall : Node.insertAll t (s :: rest) =
              (r :: (Node.insertAll t' rest).1, (Node.insertAll t' rest).2) := by
            simp [Node.insertAll, hres]
          rw [hall]
          refine ⟨iwf, by rw [ibnd, hbnd], ?_, ?_, ?_⟩
          · intro r1 hr1
            rcases List.mem_cons.mp hr1 with hr1 | hr1
            · subst hr1
              exact spcont
            · rw [← hbnd]
              exact icont r1 hr1
          · intro r1 hr1 p hp
            rcases List.mem_cons.mp hr1 with hr1 | hr1
            · subst hr1
              exact spfresh p hp
            · intro hts
              exact ifresh r1 hr1 p hp (spmono p hts)
          · refine List.pairwise_cons.mpr ⟨?_, ipair⟩
            intro r1 hr1 p hp
            rcases hp with ⟨hp0, hp1⟩
            exact ifresh r1 hr1 p hp1 (spcover p hp0)
      | none =>
          have ht' : t' = t := by
            have := insert_none_eq t s (by rw [hres])
            rw [hres] at this
            exact this
          have hall : Node.insertAll t (s :: rest) = Node.insertAll t rest := by
            rw [Node.insertAll, hres, ht']
          rw [hall]
          exact ih t hwf hrest

/-- When no free leaf of the tree is large enough for the request, `insert`
fails and leaves the tree unchanged. -/
theorem insert_fail_of_leaves (t : Node) (s : Size2i)
    (h : ∀ pr ∈ t.leavesList, pr.2 = false →
      (pr.1.size.width < s.width ∨ pr.1.size.height < s.height)) :
    Node.insert t s = (none, t) := by
  induction t with
  | leaf b tk =>
      cases tk with
      | true => exact insert_leaf_taken b s
      | false =>
          have hb := h (b, false) (by simp [Node.leavesList]) rfl
          exact insert_leaf_nofit hb false
  | node b c0 c1 ih0 ih1 =>
      have h0 : Node.insert c0 s = (none, c0) := by
        refine ih0 ?_
        intro pr hpr
        exact h pr (by simp [Node.leavesList, hpr])
      have h1 : Node.insert c1 s = (none, c1) := by
        refine ih1 ?_
        intro pr hpr
        exact h pr (by simp [Node.leavesList, hpr])
      rw [insert_node_none h0, h1]

/-- Inserting the exact size of the strictly largest free leaf (every other
free leaf has strictly smaller area) takes precisely that leaf: the
placement is that leaf's bounds, the leaf list is unchanged except that the
leaf's `taken` flag flips, and no node is created. -/
theorem insert_largest_leaf (t : Node) : ∀ l1 l2 : List (Rectanglei × Bool),
    ∀ Lb : Rectanglei,
    t.leavesList = l1 ++ (Lb, false) :: l2 →
    0 ≤ Lb.size.width → 0 ≤ Lb.size.height →
    (∀ pr ∈ l1 ++ l2, pr.2 = false →
      pr.1.size.width * pr.1.size.height < Lb.size.width * Lb.size.height) →
    (Node.insert t Lb.size).1 = some Lb ∧
    (Node.insert t Lb.size).2.leavesList = l1 ++ (Lb, true) :: l2 ∧
    (Node.insert t Lb.size).2.countNodes = t.countNodes := by
  induction t with
  | leaf b tk =>
      intro l1 l2 Lb hleaves hw hh harea
      simp only [Node.leavesList] at hleaves
      cases l1 with
      | cons x l1' =>
          exfalso
          have := congrArg List.length hleaves
          simp at this
      | nil =>
          simp only [List.nil_append] at hleaves
          injection hleaves with h1 h2
          injection h1 with hb htk
          subst hb
          subst htk
          subst h2
          rw [insert_leaf_exact]
          exact ⟨rfl, rfl, rfl⟩
  | node b c0 c1 ih0 ih1 =>
      intro l1 l2 Lb hleaves hw hh harea
      simp only [Node.leavesList] at hleaves
      have hnofit : ∀ pr : Rectanglei × Bool, pr ∈ l1 ++ l2 → pr.2 = false →
          (pr.1.size.width < Lb.size.width ∨ pr.1.size.height < Lb.size.height) := by
        intro pr hpr hfree
        by_contra hc
        push_neg at hc
        have := harea pr hpr hfree
        have hmul : Lb.size.width * Lb.size.height ≤
            pr.1.size.width * pr.1.size.height :=
          mul_le_mul hc.1 hc.2 hh (le_trans hw hc.1)
        omega
      rcases List.append_eq_append_iff.mp hleaves with ⟨pre, hp1, hp2⟩ | ⟨mid, hm1, hm2⟩
      · -- `l1 = c0.leavesList ++ pre`: the marked leaf lies in child 1
        have hfail : Node.insert c0 Lb.size = (none, c0) := by
          refine insert_fail_of_leaves c0 Lb.size ?_
          intro pr hpr hfree
          refine hnofit pr ?_ hfree
          rw [hp1]
          exact List.mem_append_left _ (List.mem_append_left _ hpr)
        obtain ⟨ires, ileaves, icount⟩ := ih1 pre l2 Lb hp2 hw hh (by
          intro pr hpr hfree
          refine harea pr ?_ hfree
          rcases List.mem_append.mp hpr with hpr | hpr
          · exact List.mem_append_left _ (by rw [hp1]; exact List.mem_append_right _ hpr)
          · exact List.mem_append_right _ hpr)
        rcases hres : Node.insert c1 Lb.size with ⟨res, c1'⟩
        rw [hres] at ires ileaves icount
        dsimp only at ires ileaves icount
        rw [insert_node_none hfail, hres]
        dsimp only
        refine ⟨ires, ?_, ?_⟩
        · simp only [Node.leavesList]
          rw [ileaves, hp1, List.append_assoc]
        · simp only [Node.countNodes]
          omega
      · -- `c0.leavesList = l1 ++ mid`: the marked leaf heads `mid ++
        -- c1.leavesList`; split on whether `mid` is empty
        cases mid with
        | nil =>
            simp only [List.append_nil] at hm1
            simp only [List.nil_append] at hm2
            have hfail : Node.insert c0 Lb.size = (none, c0) := by
              refine insert_fail_of_leaves c0 Lb.size ?_
              intro pr hpr hfree
              refine hnofit pr ?_ hfree
              rw [hm1] at hpr
              exact List.mem_append_left _ hpr
            obtain ⟨ires, ileaves, icount⟩ := ih1 [] l2 Lb hm2.symm hw hh (by
              intro pr hpr hfree
              refine harea pr ?_ hfree
              simp only [List.nil_append] at hpr
              exact List.mem_append_right _ hpr)
            rcases hres : Node.insert c1 Lb.size with ⟨res, c1'⟩
            rw [hres] at ires ileaves icount
            dsimp only at ires ileaves icount
            rw [insert_node_none hfail, hres]
            dsimp only
            refine ⟨ires, ?_, ?_⟩
            · simp only [Node.leavesList]
              rw [ileaves, hm1]
              simp
            · simp only [Node.countNodes]
              omega
        | cons y mid' =>
            rw [List.cons_append] at hm2
            injection hm2 with h1 h2
            subst h1
            have hl2 : l2 = mid' ++ c1.leavesList := h2
            obtain ⟨ires, ileaves, icount⟩ := ih0 l1 mid' Lb hm1 hw hh (by
              intro pr hpr hfree
              refine harea pr ?_ hfree
              rcases List.mem_append.mp hpr with hpr | hpr
              · exact List.mem_append_left _ hpr
              · exact List.mem_append_right _
                  (by rw [hl2]; exact List.mem_append_left _ hpr))
            rcases hres : Node.insert c0 Lb.size with ⟨res, c0'⟩
            rw [hres] at ires ileaves icount
            dsimp only at ires ileaves icount
            cases res with
            | none => simp at ires
            | some r =>
                have hr : r = Lb := by simpa using ires
                subst hr
                rw [insert_node_some hres]
                dsimp only
                refine ⟨rfl, ?_, ?_⟩
                · simp only [Node.leavesList]
                  rw [ileaves, hl2]
                  simp
                · simp only [Node.countNodes]
                  omega

/-- The number of nested `insert` calls executed by `Node::insert` on this
tree and request (the call itself included): the recursion depth of the
procedure. -/
def Node.insertDepth : Node → Size2i → Nat
  | .node _ c0 c1, s =>
      match Node.insert c0 s with
      | (some _, _) => 1 + Node.insertDepth c0 s
      | (none, _) => 1 + max (Node.insertDepth c0 s) (Node.insertDepth c1 s)
  | .leaf b tk, s =>
      if tk then 1
      else if hfit : b.size.width < s.width ∨ b.size.height < s.height then 1
      else if hexact : b.size = s then 1
      else if hsplit : b.size.width - s.width > b.size.height - s.height then
        1 + Node.insertDepth
          (.leaf ⟨b.origin,
                  ⟨b.size.width - (b.size.width - s.width), b.size.height⟩⟩ false) s
      else
        1 + Node.insertDepth
          (.leaf ⟨b.origin,
                  ⟨b.size.width, b.size.height - (b.size.height - s.height)⟩⟩ false) s
termination_by t s => Node.sizeMeasure s t
decreasing_by
  all_goals first
    | (simp [Node.sizeMeasure]; omega)
    | (simp only [Node.sizeMeasure]
       have hne : ¬(b.size.width = s.width ∧ b.size.height = s.height) := by
         intro hc
         exact hexact (by cases b with
           | mk o sz => cases sz; cases s; simp_all)
       omega)

/-! One-step unfolding lemmas for `insertDepth`, mirroring those for
`insert`. -/

theorem depth_leaf_taken (b : Rectanglei) (s : Size2i) :
    Node.insertDepth (.leaf b true) s = 1 := by
  rw [Node.insertDepth.eq_def]
  simp

theorem depth_leaf_nofit {b : Rectanglei} {s : Size2i}
    (hfit : b.size.width < s.width ∨ b.size.height < s.height) (tk : Bool) :
    Node.insertDepth (.leaf b tk) s = 1 := by
  rw [Node.insertDepth.eq_def]
  cases tk <;> simp [hfit]

theorem depth_leaf_exact (b : Rectanglei) :
    Node.insertDepth (.leaf b false) b.size = 1 := by
  rw [Node.insertDepth.eq_def]
  simp

theorem depth_leaf_exact_mk (o : Vector2i) (s : Size2i) :
    Node.insertDepth (.leaf ⟨o, s⟩ false) s = 1 :=
  depth_leaf_exact ⟨o, s⟩

theorem depth_leaf_split_v {b : Rectanglei} {s : Size2i}
    (hfit : ¬(b.size.width < s.width ∨ b.size.height < s.height))
    (hexact : ¬b.size = s)
    (hsplit : b.size.width - s.width > b.size.height - s.height) :
    Node.insertDepth (.leaf b false) s =
      1 + Node.insertDepth (.leaf ⟨b.origin, ⟨s.width, b.size.height⟩⟩ false) s := by
  rw [Node.insertDepth.eq_def]
  simp [hfit, hexact, hsplit, sub_sub_cancel]

theorem depth_leaf_split_h {b : Rectanglei} {s : Size2i}
    (hfit : ¬(b.size.width < s.width ∨ b.size.height < s.height))
    (hexact : ¬b.size = s)
    (hsplit : ¬(b.size.width - s.width > b.size.height - s.height)) :
    Node.insertDepth (.leaf b false) s =
      1 + Node.insertDepth (.leaf ⟨b.origin, ⟨b.size.width, s.height⟩⟩ false) s := by
  rw [Node.insertDepth.eq_def]
  simp [hfit, hexact, hsplit, sub_sub_cancel]

theorem depth_node_some {c0 : Node} {s : Size2i} {r : Rectanglei} {c0' : Node}
    (h : Node.insert c0 s = (some r, c0')) (b : Rectanglei) (c1 : Node) :
    Node.insertDepth (.node b c0 c1) s = 1 + Node.insertDepth c0 s := by
  rw [Node.insertDepth.eq_def]
  simp [h]

theorem depth_node_none {c0 : Node} {s : Size2i} {c0' : Node}
    (h : Node.insert c0 s = (none, c0')) (b : Rectanglei) (c1 : Node) :
    Node.insertDepth (.node b c0 c1) s =
      1 + max (Node.insertDepth c0 s) (Node.insertDepth c1 s) := by
  rw [Node.insertDepth.eq_def]
  simp [h]

/-- If the leaf's width already matches the request, inserting recurses at
most once more (a horizontal split to an exact fit): depth at most 2, and
the resulting subtree has height at most 1. -/
theorem depth_height_leaf_width_eq (b : Rectanglei) (tk : Bool) (s : Size2i)
    (h : b.size.width = s.width) :
    Node.insertDepth (.leaf b tk) s ≤ 2 ∧
    Node.height (Node.insert (.leaf b tk) s).2 ≤ 1 := by
  cases tk with
  | true =>
      rw [depth_leaf_taken, insert_leaf_taken]
      exact ⟨by omega, by simp [Node.height]⟩
  | false =>
      by_cases hfit : b.size.width < s.width ∨ b.size.height < s.height
      · rw [depth_leaf_nofit hfit, insert_leaf_nofit hfit]
        exact ⟨by omega, by simp [Node.height]⟩
      · by_cases hexact : b.size = s
        · rw [← hexact, depth_leaf_exact, insert_leaf_exact]
          exact ⟨by omega, by simp [Node.height]⟩
        · have hsplit : ¬(b.size.width - s.width > b.size.height - s.height) := by
            omega
          rw [depth_leaf_split_h hfit hexact hsplit,
            insert_leaf_split_h hfit hexact hsplit]
          dsimp only
          rw [h, show (⟨s.width, s.height⟩ : Size2i) = s from rfl,
            depth_leaf_exact_mk b.origin s, insert_leaf_exact_mk b.origin s]
          exact ⟨by omega, by simp [Node.height]⟩

/-- If the leaf's height already matches the request, inserting recurses at
most once more (a vertical split to an exact fit): depth at most 2, and the
resulting subtree has height at most 1. -/
theorem depth_height_leaf_height_eq (b : Rectanglei) (tk : Bool) (s : Size2i)
    (h : b.size.height = s.height) :
    Node.insertDepth (.leaf b tk) s ≤ 2 ∧
    Node.height (Node.insert (.leaf b tk) s).2 ≤ 1 := by
  cases tk with
  | true =>
      rw [depth_leaf_taken, insert_leaf_taken]
      exact ⟨by omega, by simp [Node.height]⟩
  | false =>
      by_cases hfit : b.size.width < s.width ∨ b.size.height < s.height
      · rw [depth_leaf_nofit hfit, insert_leaf_nofit hfit]
        exact ⟨by omega, by simp [Node.height]⟩
      · by_cases hexact : b.size = s
        · rw [← hexact, depth_leaf_exact, insert_leaf_exact]
          exact ⟨by omega, by simp [Node.height]⟩
        · have hwne : b.size.width ≠ s.width := by
            intro hc
            exact hexact (by cases b with
              | mk o sz => cases sz; cases s; simp_all)
          have hsplit : b.size.width - s.width > b.size.height - s.height := by
            omega
          rw [depth_leaf_split_v hfit hexact hsplit,
            insert_leaf_split_v hfit hexact hsplit]
          dsimp only
          rw [h, show (⟨s.width, s.height⟩ : Size2i) = s from rfl,
            depth_leaf_exact_mk b.origin s, insert_leaf_exact_mk b.origin s]
          exact ⟨by omega, by simp [Node.height]⟩

/-- Inserting into any leaf recurses to depth at most 3 (the call itself, a
split, and one further split), and the resulting subtree has height at most
2. -/
theorem depth_height_leaf (b : Rectanglei) (tk : Bool) (s : Size2i) :
    Node.insertDepth (.leaf b tk) s ≤ 3 ∧
    Node.height (Node.insert (.leaf b tk) s).2 ≤ 2 := by
  cases tk with
  | true =>
      rw [depth_leaf_taken, insert_leaf_taken]
      exact ⟨by omega, by simp [Node.height]⟩
  | false =>
      by_cases hfit : b.size.width < s.width ∨ b.size.height < s.height
      · rw [depth_leaf_nofit hfit, insert_leaf_nofit hfit]
        exact ⟨by omega, by simp [Node.height]⟩
      · by_cases hexact : b.size = s
        · rw [← hexact, depth_leaf_exact, insert_leaf_exact]
          exact ⟨by omega, by simp [Node.height]⟩
        · by_cases hsplit : b.size.width - s.width > b.size.height - s.height
          · rw [depth_leaf_split_v hfit hexact hsplit,
              insert_leaf_split_v hfit hexact hsplit]
            dsimp only
            obtain ⟨hd, hhh⟩ := depth_height_leaf_width_eq
              (⟨b.origin, ⟨s.width, b.size.height⟩⟩ : Rectanglei) false s rfl
            constructor
            · omega
            · simp only [Node.height]
              omega
          · rw [depth_leaf_split_h hfit hexact hsplit,
              insert_leaf_split_h hfit hexact hsplit]
            dsimp only
            obtain ⟨hd, hhh⟩ := depth_height_leaf_height_eq
              (⟨b.origin, ⟨b.size.width, s.height⟩⟩ : Rectanglei) false s rfl
            constructor
            · omega
            · simp only [Node.height]
              omega

/-- One insertion grows the height of the tree by at most 2. -/
theorem insert_height (t : Node) (s : Size2i) :
    Node.height (Node.insert t s).2 ≤ Node.height t + 2 := by
  induction t with
  | leaf b tk =>
      have := (depth_height_leaf b tk s).2
      simp only [Node.height]
      omega
  | node b c0 c1 ih0 ih1 =>
      rcases hres : Node.insert c0 s with ⟨res, c0'⟩
      rw [hres] at ih0
      dsimp only at ih0
      cases res with
      | some r =>
          rw [insert_node_some hres]
          simp only [Node.height]
          omega
      | none =>
          have hc0 : c0' = c0 := by
            have := insert_none_eq c0 s (by rw [hres])
            rw [hres] at this
            exact this
          subst hc0
          rw [insert_node_none hres]
          dsimp only
          simp only [Node.height]
          omega

/-- The recursion depth of one insertion is at most the tree height plus 3. -/
theorem insertDepth_le_height (t : Node) (s : Size2i) :
    Node.insertDepth t s ≤ Node.height t + 3 := by
  induction t with
  | leaf b tk =>
      have := (depth_height_leaf b tk s).1
      simp only [Node.height]
      omega
  | node b c0 c1 ih0 ih1 =>
      rcases hres : Node.insert c0 s with ⟨res, c0'⟩
      cases res with
      | some r =>
          rw [depth_node_some hres]
          simp only [Node.height]
          omega
      | none =>
          rw [depth_node_none hres]
          simp only [Node.height]
          omega

/-- After a sequence of insertions, the height of the tree is at most twice
the number of successful insertions (each success adds at most two levels;
failures change nothing). -/
theorem insertAll_height (sizes : List Size2i) : ∀ t : Node,
    Node.height (Node.insertAll t sizes).2 ≤
      Node.height t + 2 * (Node.insertAll t sizes).1.length := by
  induction sizes with
  | nil =>
      intro t
      simp [Node.insertAll]
  | cons s rest ih =>
      intro t
      rcases hres : Node.insert t s with ⟨res, t'⟩
      have hh : Node.height t' ≤ Node.height t + 2 := by
        have := insert_height t s
        rw [hres] at this
        exact this
      cases res with
      | some r =>
          have hall : Node.insertAll t (s :: rest) =
              (r :: (Node.insertAll t' rest).1, (Node.insertAll t' rest).2) := by
            simp [Node.insertAll, hres]
          rw [hall]
          dsimp only
          have := ih t'
          simp only [List.length_cons]
          omega
      | none =>
          have ht' : t' = t := by
            have := insert_none_eq t s (by rw [hres])
            rw [hres] at this
            exact this
          have hall : Node.insertAll t (s :: rest) = Node.insertAll t rest := by
            rw [Node.insertAll, hres, ht']
          rw [hall]
          exact ih t

/-- On a surface with a negative dimension, every insertion with a
non-negative requested size fails immediately, so a whole sequence returns
no placements and leaves the root leaf unchanged. -/
theorem insertAll_neg_leaf (sizes : List Size2i) : ∀ (b : Rectanglei) (tk : Bool),
    (b.size.width < 0 ∨ b.size.height < 0) →
    (∀ s ∈ sizes, 0 ≤ s.width ∧ 0 ≤ s.height) →
    Node.insertAll (.leaf b tk) sizes = ([], .leaf b tk) := by
  induction sizes with
  | nil =>
      intro b tk hneg hs
      rfl
  | cons s rest ih =>
      intro b tk hneg hs
      have hs0 := hs s (List.mem_cons_self s rest)
      have hfit : b.size.width < s.width ∨ b.size.height < s.height := by omega
      rw [Node.insertAll, insert_leaf_nofit hfit tk]
      exact ih b tk hneg (fun u hu => hs u (List.mem_cons_of_mem s hu))

/-- In a well-formed tree, every leaf's bounds are contained in the root
bounds. -/
theorem leavesList_contains (t : Node) (hwf : t.wf) :
    ∀ pr ∈ t.leavesList, rectContains t.bounds pr.1 := by
  induction t with
  | leaf b tk =>
      intro pr hpr
      simp [Node.leavesList] at hpr
      subst hpr
      exact rectContains_refl b
  | node b c0 c1 ih0 ih1 =>
      intro pr hpr
      obtain ⟨hsp, hwf0, hwf1⟩ := hwf
      simp only [Node.leavesList] at hpr
      rcases List.mem_append.mp hpr with hpr | hpr
      · exact rectContains_trans (splitPair_contains0 hsp) (ih0 hwf0 pr hpr)
      · exact rectContains_trans (splitPair_contains1 hsp) (ih1 hwf1 pr hpr)

/-- C1: for every surface size and every sequence of `Space::insert` calls
with non-negative requested sizes (sizes are non-negative by the data
model), the rectangles returned by the successful calls, in call order, are
pairwise disjoint: no two share any point.  In particular, once a call has
succeeded for a region, no later call returns a placement overlapping that
region. -/
theorem claim_C1_no_overlap (surf : Size2i) (sizes : List Size2i)
    (hs : ∀ s ∈ sizes, 0 ≤ s.width ∧ 0 ≤ s.height) :
    List.Pairwise rectDisjoint
      ((BinPackingSpace.create surf).insertAll sizes).1 := by
  show List.Pairwise rectDisjoint
    (Node.insertAll (.leaf (rectFromSize surf) false) sizes).1
  by_cases hsurf : 0 ≤ surf.width ∧ 0 ≤ surf.height
  · exact (insertAll_spec sizes (.leaf (rectFromSize surf) false)
      ⟨hsurf.1, hsurf.2⟩ hs).2.2.2.2
  · have hneg : surf.width < 0 ∨ surf.height < 0 := by omega
    rw [insertAll_neg_leaf sizes (rectFromSize surf) false hneg hs]
    simp

/-- Witness for C1 on the spec's concrete scenario: a 10 by 10 surface with
insertions of 4 by 10 and 6 by 10. -/
theorem claim_C1_no_overlap_witness :
    (∀ s ∈ [(⟨4, 10⟩ : Size2i), ⟨6, 10⟩], 0 ≤ s.width ∧ 0 ≤ s.height) ∧
    List.Pairwise rectDisjoint
      ((BinPackingSpace.create ⟨10, 10⟩).insertAll [⟨4, 10⟩, ⟨6, 10⟩]).1 :=
  ⟨by decide, claim_C1_no_overlap ⟨10, 10⟩ [⟨4, 10⟩, ⟨6, 10⟩] (by decide)⟩

/-- C2: for every surface size and every sequence of `Space::insert` calls
with non-negative requested sizes, every rectangle returned by a successful
call lies entirely within the space's overall bounds: the rectangle with
origin (0, 0) and the size given at construction. -/
theorem claim_C2_containment (surf : Size2i) (sizes : List Size2i)
    (hs : ∀ s ∈ sizes, 0 ≤ s.width ∧ 0 ≤ s.height) :
    ∀ r ∈ ((BinPackingSpace.create surf).insertAll sizes).1,
      rectContains ⟨⟨0, 0⟩, surf⟩ r := by
  show ∀ r ∈ (Node.insertAll (.leaf (rectFromSize surf) false) sizes).1,
    rectContains ⟨⟨0, 0⟩, surf⟩ r
  by_cases hsurf : 0 ≤ surf.width ∧ 0 ≤ surf.height
  · exact (insertAll_spec sizes (.leaf (rectFromSize surf) false)
      ⟨hsurf.1, hsurf.2⟩ hs).2.2.1
  · have hneg : surf.width < 0 ∨ surf.height < 0 := by omega
    rw [insertAll_neg_leaf sizes (rectFromSize surf) false hneg hs]
    simp

/-- Witness for C2 on the spec's concrete scenario. -/
theorem claim_C2_containment_witness :
    (∀ s ∈ [(⟨4, 10⟩ : Size2i), ⟨6, 10⟩], 0 ≤ s.width ∧ 0 ≤ s.height) ∧
    (∀ r ∈ ((BinPackingSpace.create ⟨10, 10⟩).insertAll [⟨4, 10⟩, ⟨6, 10⟩]).1,
      rectContains ⟨⟨0, 0⟩, ⟨10, 10⟩⟩ r) :=
  ⟨by decide, claim_C2_containment ⟨10, 10⟩ [⟨4, 10⟩, ⟨6, 10⟩] (by decide)⟩

/-- C3: when `insert` splits a free leaf (the request fits but is not an
exact match), it compares the leftover width with the leftover height; if
the leftover width is strictly greater it splits vertically (child 0 at the
original origin with the requested width and full height, child 1 offset by
the requested width with the remaining width and full height), otherwise —
ties included — it splits horizontally (child 0 with full width and the
requested height, child 1 offset by the requested height with the remaining
height); in both cases the children's bounds exactly tile the parent's
bounds, with no overlap and no gap. -/
theorem claim_C3_split_shape (b : Rectanglei) (s : Size2i)
    (hw : 0 ≤ s.width) (hh : 0 ≤ s.height)
    (hfit : ¬(b.size.width < s.width ∨ b.size.height < s.height))
    (hexact : b.size ≠ s) :
    ∃ c0 c1 : Node, (Node.insert (.leaf b false) s).2 = .node b c0 c1 ∧
      (if b.size.width - s.width > b.size.height - s.height then
        c0.bounds = ⟨b.origin, ⟨s.width, b.size.height⟩⟩ ∧
        c1.bounds = ⟨⟨b.origin.x + s.width, b.origin.y⟩,
                     ⟨b.size.width - s.width, b.size.height⟩⟩
      else
        c0.bounds = ⟨b.origin, ⟨b.size.width, s.height⟩⟩ ∧
        c1.bounds = ⟨⟨b.origin.x, b.origin.y + s.height⟩,
                     ⟨b.size.width, b.size.height - s.height⟩⟩) ∧
      (∀ p, pointIn b p ↔ (pointIn c0.bounds p ∨ pointIn c1.bounds p)) ∧
      rectDisjoint c0.bounds c1.bounds := by
  by_cases hsplit : b.size.width - s.width > b.size.height - s.height
  · rw [insert_leaf_split_v hfit hexact hsplit]
    dsimp only
    have hsp : splitPair b (⟨b.origin, ⟨s.width, b.size.height⟩⟩ : Rectanglei)
        (⟨⟨b.origin.x + s.width, b.origin.y⟩,
          ⟨b.size.width - s.width, b.size.height⟩⟩ : Rectanglei) :=
      Or.inl ⟨s.width, hw, by omega, rfl, rfl⟩
    refine ⟨(Node.insert (.leaf ⟨b.origin, ⟨s.width, b.size.height⟩⟩ false) s).2,
      .leaf ⟨⟨b.origin.x + s.width, b.origin.y⟩,
             ⟨b.size.width - s.width, b.size.height⟩⟩ false, rfl, ?_, ?_, ?_⟩
    · rw [if_pos hsplit, insert_bounds]
      exact ⟨rfl, rfl⟩
    · rw [insert_bounds]
      simp only [Node.bounds]
      exact splitPair_tile hsp
    · rw [insert_bounds]
      simp only [Node.bounds]
      exact splitPair_disjoint hsp
  · rw [insert_leaf_split_h hfit hexact hsplit]
    dsimp only
    have hsp : splitPair b (⟨b.origin, ⟨b.size.width, s.height⟩⟩ : Rectanglei)
        (⟨⟨b.origin.x, b.origin.y + s.height⟩,
          ⟨b.size.width, b.size.height - s.height⟩⟩ : Rectanglei) :=
      Or.inr ⟨s.height, hh, by omega, rfl, rfl⟩
    refine ⟨(Node.insert (.leaf ⟨b.origin, ⟨b.size.width, s.height⟩⟩ false) s).2,
      .leaf ⟨⟨b.origin.x, b.origin.y + s.height⟩,
             ⟨b.size.width, b.size.height - s.height⟩⟩ false, rfl, ?_, ?_, ?_⟩
    · rw [if_neg hsplit, insert_bounds]
      exact ⟨rfl, rfl⟩
    · rw [insert_bounds]
      simp only [Node.bounds]
      exact splitPair_tile hsp
    · rw [insert_bounds]
      simp only [Node.bounds]
      exact splitPair_disjoint hsp

/-- Witness for C3: a 10 by 10 leaf with a 4 by 10 request (leftover width
6 exceeds leftover height 0, so the split is vertical). -/
theorem claim_C3_split_shape_witness :
    (0 ≤ (⟨4, 10⟩ : Size2i).width ∧ 0 ≤ (⟨4, 10⟩ : Size2i).height ∧
     ¬((⟨⟨0, 0⟩, ⟨10, 10⟩⟩ : Rectanglei).size.width < (⟨4, 10⟩ : Size2i).width ∨
       (⟨⟨0, 0⟩, ⟨10, 10⟩⟩ : Rectanglei).size.height < (⟨4, 10⟩ : Size2i).height) ∧
     (⟨⟨0, 0⟩, ⟨10, 10⟩⟩ : Rectanglei).size ≠ (⟨4, 10⟩ : Size2i)) ∧
    (∃ c0 c1 : Node,
      (Node.insert (.leaf ⟨⟨0, 0⟩, ⟨10, 10⟩⟩ false) ⟨4, 10⟩).2 = .node ⟨⟨0, 0⟩, ⟨10, 10⟩⟩ c0 c1 ∧
      (if (⟨⟨0, 0⟩, ⟨10, 10⟩⟩ : Rectanglei).size.width - (⟨4, 10⟩ : Size2i).width >
          (⟨⟨0, 0⟩, ⟨10, 10⟩⟩ : Rectanglei).size.height - (⟨4, 10⟩ : Size2i).height then
        c0.bounds = ⟨(⟨⟨0, 0⟩, ⟨10, 10⟩⟩ : Rectanglei).origin,
                     ⟨(⟨4, 10⟩ : Size2i).width, (⟨⟨0, 0⟩, ⟨10, 10⟩⟩ : Rectanglei).size.height⟩⟩ ∧
        c1.bounds = ⟨⟨(⟨⟨0, 0⟩, ⟨10, 10⟩⟩ : Rectanglei).origin.x + (⟨4, 10⟩ : Size2i).width,
                      (⟨⟨0, 0⟩, ⟨10, 10⟩⟩ : Rectanglei).origin.y⟩,
                     ⟨(⟨⟨0, 0⟩, ⟨10, 10⟩⟩ : Rectanglei).size.width - (⟨4, 10⟩ : Size2i).width,
                      (⟨⟨0, 0⟩, ⟨10, 10⟩⟩ : Rectanglei).size.height⟩⟩
      else
        c0.bounds = ⟨(⟨⟨0, 0⟩, ⟨10, 10⟩⟩ : Rectanglei).origin,
                     ⟨(⟨⟨0, 0⟩, ⟨10, 10⟩⟩ : Rectanglei).size.width, (⟨4, 10⟩ : Size2i).height⟩⟩ ∧
        c1.bounds = ⟨⟨(⟨⟨0, 0⟩, ⟨10, 10⟩⟩ : Rectanglei).origin.x,
                      (⟨⟨0, 0⟩, ⟨10, 10⟩⟩ : Rectanglei).origin.y + (⟨4, 10⟩ : Size2i).height⟩,
                     ⟨(⟨⟨0, 0⟩, ⟨10, 10⟩⟩ : Rectanglei).size.width,
                      (⟨⟨0, 0⟩, ⟨10, 10⟩⟩ : Rectanglei).size.height - (⟨4, 10⟩ : Size2i).height⟩⟩) ∧
      (∀ p, pointIn ⟨⟨0, 0⟩, ⟨10, 10⟩⟩ p ↔ (pointIn c0.bounds p ∨ pointIn c1.bounds p)) ∧
      rectDisjoint c0.bounds c1.bounds) :=
  ⟨⟨by decide, by decide, by decide, by decide⟩,
    claim_C3_split_shape ⟨⟨0, 0⟩, ⟨10, 10⟩⟩ ⟨4, 10⟩
      (by decide) (by decide) (by decide) (by decide)⟩

/-- C4: on an internal node, `insert` first tries child 0; if that attempt
returns a placement, exactly that placement (and only child 0's subtree
updated) is the result; otherwise the result of inserting into child 1,
success or failure, is returned. -/
theorem claim_C4_child_order (b : Rectanglei) (c0 c1 : Node) (s : Size2i) :
    Node.insert (.node b c0 c1) s =
      (match Node.insert c0 s with
       | (some r, c0') => (some r, Node.node b c0' c1)
       | (none, c0') =>
           ((Node.insert c1 s).1, Node.node b c0' (Node.insert c1 s).2)) := by
  rcases h : Node.insert c0 s with ⟨res, c0'⟩
  cases res with
  | some r => rw [insert_node_some h]
  | none => rw [insert_node_none h]

/-- C5: inserting a size exactly equal to the size of the current largest
free leaf (the unique free leaf of maximal area — every other free leaf is
strictly smaller in area) returns a rectangle equal to that leaf's bounds,
marks that leaf taken (position `l1.length` of the depth-first leaf list,
whose entry flips from free to taken while everything else is unchanged),
and creates no new nodes anywhere in the tree. -/
theorem claim_C5_exact_fit (t : Node) (l1 l2 : List (Rectanglei × Bool))
    (Lb : Rectanglei)
    (hleaves : t.leavesList = l1 ++ (Lb, false) :: l2)
    (hw : 0 ≤ Lb.size.width) (hh : 0 ≤ Lb.size.height)
    (hlargest : ∀ pr ∈ l1 ++ l2, pr.2 = false →
      pr.1.size.width * pr.1.size.height < Lb.size.width * Lb.size.height) :
    (Node.insert t Lb.size).1 = some Lb ∧
    (Node.insert t Lb.size).2.leavesList = l1 ++ (Lb, true) :: l2 ∧
    (Node.insert t Lb.size).2.countNodes = t.countNodes :=
  insert_largest_leaf t l1 l2 Lb hleaves hw hh hlargest

/-- Witness for C5: a tree whose free leaves are a 6 by 4 leaf and an 8 by 7
leaf (the larger one second in depth-first order); inserting 8 by 7 takes
the second leaf without creating nodes. -/
theorem claim_C5_exact_fit_witness :
    ((Node.node ⟨⟨0, 0⟩, ⟨14, 11⟩⟩
        (.leaf ⟨⟨0, 0⟩, ⟨6, 4⟩⟩ false)
        (.leaf ⟨⟨6, 0⟩, ⟨8, 7⟩⟩ false)).leavesList =
      [(⟨⟨0, 0⟩, ⟨6, 4⟩⟩, false)] ++ ((⟨⟨6, 0⟩, ⟨8, 7⟩⟩ : Rectanglei), false) :: [] ∧
     0 ≤ (⟨⟨6, 0⟩, ⟨8, 7⟩⟩ : Rectanglei).size.width ∧
     0 ≤ (⟨⟨6, 0⟩, ⟨8, 7⟩⟩ : Rectanglei).size.height ∧
     (∀ pr ∈ [((⟨⟨0, 0⟩, ⟨6, 4⟩⟩ : Rectanglei), false)] ++ ([] : List (Rectanglei × Bool)),
        pr.2 = false →
        pr.1.size.width * pr.1.size.height <
          (⟨⟨6, 0⟩, ⟨8, 7⟩⟩ : Rectanglei).size.width *
            (⟨⟨6, 0⟩, ⟨8, 7⟩⟩ : Rectanglei).size.height)) ∧
    ((Node.insert (.node ⟨⟨0, 0⟩, ⟨14, 11⟩⟩
        (.leaf ⟨⟨0, 0⟩, ⟨6, 4⟩⟩ false)
        (.leaf ⟨⟨6, 0⟩, ⟨8, 7⟩⟩ false)) (⟨⟨6, 0⟩, ⟨8, 7⟩⟩ : Rectanglei).size).1 =
      some ⟨⟨6, 0⟩, ⟨8, 7⟩⟩ ∧
     (Node.insert (.node ⟨⟨0, 0⟩, ⟨14, 11⟩⟩
        (.leaf ⟨⟨0, 0⟩, ⟨6, 4⟩⟩ false)
        (.leaf ⟨⟨6, 0⟩, ⟨8, 7⟩⟩ false)) (⟨⟨6, 0⟩, ⟨8, 7⟩⟩ : Rectanglei).size).2.leavesList =
      [(⟨⟨0, 0⟩, ⟨6, 4⟩⟩, false)] ++ ((⟨⟨6, 0⟩, ⟨8, 7⟩⟩ : Rectanglei), true) :: [] ∧
     (Node.insert (.node ⟨⟨0, 0⟩, ⟨14, 11⟩⟩
        (.leaf ⟨⟨0, 0⟩, ⟨6, 4⟩⟩ false)
        (.leaf ⟨⟨6, 0⟩, ⟨8, 7⟩⟩ false)) (⟨⟨6, 0⟩, ⟨8, 7⟩⟩ : Rectanglei).size).2.countNodes =
      (Node.node ⟨⟨0, 0⟩, ⟨14, 11⟩⟩
        (.leaf ⟨⟨0, 0⟩, ⟨6, 4⟩⟩ false)
        (.leaf ⟨⟨6, 0⟩, ⟨8, 7⟩⟩ false)).countNodes) :=
  ⟨⟨by decide, by decide, by decide, by decide⟩,
    claim_C5_exact_fit _ [(⟨⟨0, 0⟩, ⟨6, 4⟩⟩, false)] [] ⟨⟨6, 0⟩, ⟨8, 7⟩⟩
      (by decide) (by decide) (by decide) (by decide)⟩

/-- C6: when a free leaf fits the request in both dimensions, insertion
succeeds; in the non-exact case the leaf splits and the new child 0 is, by
construction, large enough for the request along both axes. -/
theorem claim_C6_fit_succeeds (b : Rectanglei) (s : Size2i)
    (hfitw : s.width ≤ b.size.width) (hfith : s.height ≤ b.size.height) :
    (b.size ≠ s →
      ∃ c0 c1 : Node, (Node.insert (.leaf b false) s).2 = .node b c0 c1 ∧
        s.width ≤ c0.bounds.size.width ∧ s.height ≤ c0.bounds.size.height) ∧
    (Node.insert (.leaf b false) s).1.isSome := by
  have hfit : ¬(b.size.width < s.width ∨ b.size.height < s.height) := by omega
  constructor
  · intro hexact
    by_cases hsplit : b.size.width - s.width > b.size.height - s.height
    · rw [insert_leaf_split_v hfit hexact hsplit]
      dsimp only
      refine ⟨_, _, rfl, ?_, ?_⟩
      · rw [insert_bounds]
        simp [Node.bounds]
      · rw [insert_bounds]
        simp [Node.bounds]
        exact hfith
    · rw [insert_leaf_split_h hfit hexact hsplit]
      dsimp only
      refine ⟨_, _, rfl, ?_, ?_⟩
      · rw [insert_bounds]
        simp [Node.bounds]
        exact hfitw
      · rw [insert_bounds]
        simp [Node.bounds]
  · obtain ⟨r, t', heq⟩ := insert_free_fit_some b s hfit
    rw [heq]
    rfl

/-- Witness for C6: a 10 by 10 free leaf and a 4 by 4 request. -/
theorem claim_C6_fit_succeeds_witness :
    ((⟨4, 4⟩ : Size2i).width ≤ (⟨⟨0, 0⟩, ⟨10, 10⟩⟩ : Rectanglei).size.width ∧
     (⟨4, 4⟩ : Size2i).height ≤ (⟨⟨0, 0⟩, ⟨10, 10⟩⟩ : Rectanglei).size.height) ∧
    (((⟨⟨0, 0⟩, ⟨10, 10⟩⟩ : Rectanglei).size ≠ (⟨4, 4⟩ : Size2i) →
      ∃ c0 c1 : Node,
        (Node.insert (.leaf ⟨⟨0, 0⟩, ⟨10, 10⟩⟩ false) ⟨4, 4⟩).2 =
          .node ⟨⟨0, 0⟩, ⟨10, 10⟩⟩ c0 c1 ∧
        (⟨4, 4⟩ : Size2i).width ≤ c0.bounds.size.width ∧
        (⟨4, 4⟩ : Size2i).height ≤ c0.bounds.size.height) ∧
     (Node.insert (.leaf ⟨⟨0, 0⟩, ⟨10, 10⟩⟩ false) ⟨4, 4⟩).1.isSome) :=
  ⟨⟨by decide, by decide⟩,
    claim_C6_fit_succeeds ⟨⟨0, 0⟩, ⟨10, 10⟩⟩ ⟨4, 4⟩ (by decide) (by decide)⟩

/-- C7: insertion signals failure only through the absence of a placement
(the embedding is a total function into an optional result; no exception
path exists), and it fails in exactly these cases: on a leaf, the leaf is
already taken or too small in one of the two dimensions; on an internal
node, exactly when both children fail. -/
theorem claim_C7_failure_conditions (s : Size2i) :
    (∀ (b : Rectanglei) (tk : Bool),
      ((Node.insert (.leaf b tk) s).1 = none ↔
        (tk = true ∨ b.size.width < s.width ∨ b.size.height < s.height))) ∧
    (∀ (b : Rectanglei) (c0 c1 : Node),
      ((Node.insert (.node b c0 c1) s).1 = none ↔
        ((Node.insert c0 s).1 = none ∧ (Node.insert c1 s).1 = none))) := by
  constructor
  · intro b tk
    cases tk with
    | true =>
        rw [insert_leaf_taken]
        simp
    | false =>
        by_cases hfit : b.size.width < s.width ∨ b.size.height < s.height
        · rw [insert_leaf_nofit hfit]
          simp [hfit]
        · obtain ⟨r, t', heq⟩ := insert_free_fit_some b s hfit
          rw [heq]
          simp [hfit]
  · intro b c0 c1
    rcases h : Node.insert c0 s with ⟨res, c0'⟩
    cases res with
    | some r =>
        rw [insert_node_some h]
        simp [h]
    | none =>
        rw [insert_node_none h]
        simp [h]

/-- C8: a request wider or taller than the space's overall size always
fails, whatever non-negative insertions were performed before. -/
theorem claim_C8_oversize_fails (surf : Size2i) (sizes : List Size2i)
    (s : Size2i) (hsw : 0 ≤ surf.width) (hsh : 0 ≤ surf.height)
    (hs : ∀ u ∈ sizes, 0 ≤ u.width ∧ 0 ≤ u.height)
    (hover : surf.width < s.width ∨ surf.height < s.height) :
    ((((BinPackingSpace.create surf).insertAll sizes).2).insert s).1 = none := by
  show (Node.insert (Node.insertAll (.leaf (rectFromSize surf) false) sizes).2 s).1 = none
  obtain ⟨hwf, hbnd, -, -, -⟩ :=
    insertAll_spec sizes (.leaf (rectFromSize surf) false) ⟨hsw, hsh⟩ hs
  have hfail := insert_fail_of_leaves
    (Node.insertAll (.leaf (rectFromSize surf) false) sizes).2 s (by
      intro pr hpr hfree
      have hcont := leavesList_contains _ hwf pr hpr
      rw [hbnd] at hcont
      have hsz := rectContains_size hcont
      rcases hover with hover | hover
      · exact Or.inl (by
          have : pr.1.size.width ≤ surf.width := hsz.1
          omega)
      · exact Or.inr (by
          have : pr.1.size.height ≤ surf.height := hsz.2
          omega))
  rw [hfail]

/-- Witness for C8: a 10 by 10 surface, one prior insertion of 4 by 10, and
an oversize 11 by 5 request. -/
theorem claim_C8_oversize_fails_witness :
    (0 ≤ (⟨10, 10⟩ : Size2i).width ∧ 0 ≤ (⟨10, 10⟩ : Size2i).height ∧
     (∀ u ∈ [(⟨4, 10⟩ : Size2i)], 0 ≤ u.width ∧ 0 ≤ u.height) ∧
     ((⟨10, 10⟩ : Size2i).width < (⟨11, 5⟩ : Size2i).width ∨
      (⟨10, 10⟩ : Size2i).height < (⟨11, 5⟩ : Size2i).height)) ∧
    ((((BinPackingSpace.create ⟨10, 10⟩).insertAll [⟨4, 10⟩]).2).insert ⟨11, 5⟩).1 = none :=
  ⟨⟨by decide, by decide, by decide, by decide⟩,
    claim_C8_oversize_fails ⟨10, 10⟩ [⟨4, 10⟩] ⟨11, 5⟩
      (by decide) (by decide) (by decide) (by decide)⟩

/-- C9 (counterexample to the stated depth bound): on a freshly constructed
10 by 10 space — zero prior successful insertions — inserting 4 by 4
recurses to depth 3 (the outer call plus two splits), which is not bounded
by the number of prior successful insertions, 0. -/
theorem claim_C9_counterexample :
    ((BinPackingSpace.create ⟨10, 10⟩).insertAll []).1.length = 0 ∧
    Node.insertDepth ((BinPackingSpace.create ⟨10, 10⟩).insertAll []).2.root ⟨4, 4⟩ = 3 ∧
    ¬(Node.insertDepth ((BinPackingSpace.create ⟨10, 10⟩).insertAll []).2.root ⟨4, 4⟩ ≤
        ((BinPackingSpace.create ⟨10, 10⟩).insertAll []).1.length) := by
  have hd : Node.insertDepth
      (.leaf (⟨⟨0, 0⟩, ⟨10, 10⟩⟩ : Rectanglei) false) (⟨4, 4⟩ : Size2i) = 3 := by
    rw [@depth_leaf_split_h ⟨⟨0, 0⟩, ⟨10, 10⟩⟩ ⟨4, 4⟩
      (by decide) (by decide) (by decide)]
    show 1 + Node.insertDepth
      (.leaf (⟨⟨0, 0⟩, ⟨10, 4⟩⟩ : Rectanglei) false) (⟨4, 4⟩ : Size2i) = 3
    rw [@depth_leaf_split_v ⟨⟨0, 0⟩, ⟨10, 4⟩⟩ ⟨4, 4⟩
      (by decide) (by decide) (by decide)]
    show 1 + (1 + Node.insertDepth
      (.leaf (⟨⟨0, 0⟩, ⟨4, 4⟩⟩ : Rectanglei) false) (⟨4, 4⟩ : Size2i)) = 3
    rw [show (⟨⟨0, 0⟩, ⟨4, 4⟩⟩ : Rectanglei) =
      (⟨⟨0, 0⟩, (⟨4, 4⟩ : Size2i)⟩ : Rectanglei) from rfl,
      depth_leaf_exact_mk ⟨0, 0⟩ ⟨4, 4⟩]
  refine ⟨rfl, hd, ?_⟩
  show ¬(Node.insertDepth
    (.leaf (⟨⟨0, 0⟩, ⟨10, 10⟩⟩ : Rectanglei) false) (⟨4, 4⟩ : Size2i) ≤ 0)
  rw [hd]
  omega

/-- C9 (amended): every call to `insert` terminates (the embedding is a
total function, by descent on the leftover slack), and after any sequence
of prior calls its recursion depth is bounded by twice the number of prior
successful insertions plus three: each success adds at most two levels to
the tree, failures add none, and a call descends the tree and then splits
at most twice. -/
theorem claim_C9_depth_bound (surf : Size2i) (sizes : List Size2i)
    (s : Size2i) :
    Node.insertDepth ((BinPackingSpace.create surf).insertAll sizes).2.root s ≤
      2 * ((BinPackingSpace.create surf).insertAll sizes).1.length + 3 := by
  show Node.insertDepth (Node.insertAll (.leaf (rectFromSize surf) false) sizes).2 s ≤
    2 * (Node.insertAll (.leaf (rectFromSize surf) false) sizes).1.length + 3
  have h1 := insertDepth_le_height
    (Node.insertAll (.leaf (rectFromSize surf) false) sizes).2 s
  have h2 := insertAll_height sizes (.leaf (rectFromSize surf) false)
  simp only [Node.height] at h2
  omega

/-- C10: whenever `insert` succeeds for a request with non-negative width
and height, the returned rectangle's size is exactly the requested size. -/
theorem claim_C10_result_size (t : Node) (s : Size2i)
    (hw : 0 ≤ s.width) (hh : 0 ≤ s.height) (r : Rectanglei)
    (hr : (Node.insert t s).1 = some r) : r.size = s :=
  insert_some_size t s r hr

/-- Witness for C10: an exact fit of 3 by 4 into a 3 by 4 free leaf. -/
theorem claim_C10_result_size_witness :
    (0 ≤ (⟨3, 4⟩ : Size2i).width ∧ 0 ≤ (⟨3, 4⟩ : Size2i).height ∧
     (Node.insert (.leaf ⟨⟨0, 0⟩, ⟨3, 4⟩⟩ false) ⟨3, 4⟩).1 =
       some ⟨⟨0, 0⟩, ⟨3, 4⟩⟩) ∧
    (⟨⟨0, 0⟩, ⟨3, 4⟩⟩ : Rectanglei).size = (⟨3, 4⟩ : Size2i) := by
  have hsome : (Node.insert (.leaf (⟨⟨0, 0⟩, ⟨3, 4⟩⟩ : Rectanglei) false)
      (⟨3, 4⟩ : Size2i)).1 = some ⟨⟨0, 0⟩, ⟨3, 4⟩⟩ := by
    rw [show (⟨⟨0, 0⟩, ⟨3, 4⟩⟩ : Rectanglei) =
      (⟨⟨0, 0⟩, (⟨3, 4⟩ : Size2i)⟩ : Rectanglei) from rfl,
      insert_leaf_exact_mk ⟨0, 0⟩ ⟨3, 4⟩]
  exact ⟨⟨by decide, by decide, hsome⟩,
    claim_C10_result_size _ _ (by decide) (by decide) _ hsome⟩
